import Mathlib

/-!
# Verification of the Telegram Calendar API core (src/main.py)

Shallow embedding of the calendar service in `src/main.py`:
given a list of date strings and a marker string ("emoji"), the service
parses the dates with `datetime.strptime(s, "%d-%m-%Y")`, groups them by
(year, month), and renders a Monday-first monthly text calendar with the
marked days replaced by the marker.

Python strings are modelled as `List Char` (`Str`).  Python `datetime`
objects are modelled by the `PyDate` structure (only year/month/day are
ever used).  `HTTPException(400, detail)` failures are modelled by the
structured `ApiError` type; `invalid_detail` reproduces the detail
f-string of the invalid-date error.  Digits are modelled as ASCII `0`-`9`
(CPython's `re` pattern `\d` used by `_strptime` would also admit other
Unicode decimal digits; that corner is not modelled).
-/

/-- Python strings are modelled as lists of characters. -/
abbrev Str := List Char

/-- Coerce a Lean string literal into the model. -/
def str (s : String) : Str := s.data

/-! ## Decimal digits and decimal rendering (Python `int(...)` / `str(...)`) -/

/-- Numeric value of a digit string, as Python `int` on an all-digit token. -/
def nat_of_digits (s : Str) : Nat :=
  s.foldl (fun a c => 10 * a + (c.toNat - 48)) 0

/-- The ASCII character of a single decimal digit. -/
def digit_char (d : Nat) : Char := Char.ofNat (48 + d)

/-- Fuel-driven digit emitter underlying `nat_chars` (fuel ≥ n suffices). -/
def nat_chars_go : Nat → Nat → Str → Str
  | 0, _, acc => acc
  | fuel + 1, n, acc =>
    if n = 0 then acc else nat_chars_go fuel (n / 10) (digit_char (n % 10) :: acc)

/-- Decimal rendering of a natural number, as Python `str(n)` for n ≥ 0. -/
def nat_chars (n : Nat) : Str :=
  if n = 0 then ['0'] else nat_chars_go n n []

/-- Zero padding to a fixed width, as a Python `0Nd` format spec. -/
def zero_pad (w : Nat) (s : Str) : Str := List.replicate (w - s.length) '0' ++ s

/-- Python `f-string` fragment `{n:04d}`. -/
def fmt04 (n : Nat) : Str := zero_pad 4 (nat_chars n)

/-- Python `f-string` fragment `{n:02d}`. -/
def fmt02 (n : Nat) : Str := zero_pad 2 (nat_chars n)

/-- The `"YYYY-MM"` key `f"{year:04d}-{month:02d}"` used in `make_calendar`. -/
def month_key (y m : Nat) : Str := fmt04 y ++ '-' :: fmt02 m

/-! ## Python string operations used by `_build_calendar_message` -/

/-- Python `sep.join(parts)`. -/
def join_with (sep : Str) : List Str → Str
  | [] => []
  | [p] => p
  | p :: q :: ps => p ++ sep ++ join_with sep (q :: ps)

/-- Python `" ".join(parts)`. -/
def join_sp (parts : List Str) : Str := join_with [' '] parts

/-- Python `"\n".join(parts)`. -/
def join_nl (parts : List Str) : Str := join_with ['\n'] parts

/-- Python `s.split(c)` for a single-character separator: split at every
occurrence, keeping empty fragments. -/
def split_char (c : Char) : Str → List Str
  | [] => [[]]
  | a :: s =>
    if a = c then [] :: split_char c s
    else
      match split_char c s with
      | [] => [[a]]
      | t :: ts => (a :: t) :: ts

/-- Whitespace characters stripped by Python `str.strip()` (ASCII part;
the inputs handled here contain no exotic Unicode whitespace). -/
def is_space (c : Char) : Bool :=
  decide (c = ' ' ∨ c = '\t' ∨ c = '\n' ∨ c = '\r' ∨ c = Char.ofNat 11 ∨ c = Char.ofNat 12)

/-- Python `s.strip()`: drop whitespace from both ends. -/
def py_strip (s : Str) : Str := List.rdropWhile is_space (s.dropWhile is_space)

/-- `true` iff the string contains no whitespace character. -/
def no_ws (s : Str) : Bool := s.all (fun c => !is_space c)

/-! ## Substring occurrence (used to state "appears verbatim") -/

/-- `starts_with p s` : `p` is a prefix of `s`. -/
def starts_with : Str → Str → Bool
  | [], _ => true
  | _ :: _, [] => false
  | a :: p, b :: s => a = b && starts_with p s

/-- `has_sub p s` : `p` occurs contiguously inside `s`. -/
def has_sub (p : Str) : Str → Bool
  | [] => starts_with p []
  | c :: s => starts_with p (c :: s) || has_sub p s

/-! ## Proleptic Gregorian calendar arithmetic

The month grid of `calendar.Calendar(firstweekday=MONDAY)` is derived from
`datetime.date`'s proleptic Gregorian ordinal, exactly as in CPython's
`datetime` module (`_days_before_year`, `_days_in_month`, `weekday`). -/

/-- Gregorian leap-year test (`calendar.isleap`). -/
def isleap (y : Nat) : Bool :=
  decide (y % 4 = 0 ∧ (y % 100 ≠ 0 ∨ y % 400 = 0))

/-- Number of days in month `m` of year `y` (for `1 ≤ m ≤ 12`). -/
def days_in_month (y m : Nat) : Nat :=
  if m = 2 then (if isleap y then 29 else 28)
  else if m = 4 ∨ m = 6 ∨ m = 9 ∨ m = 11 then 30
  else 31

/-- Days in all years before year `y` (CPython `_days_before_year`). -/
def days_before_year (y : Nat) : Nat :=
  365 * (y - 1) + (y - 1) / 4 - (y - 1) / 100 + (y - 1) / 400

/-- Days in year `y` before month `m` (CPython `_days_before_month`). -/
def days_before_month (y m : Nat) : Nat :=
  ((List.range' 1 (m - 1)).map (days_in_month y)).sum

/-- Proleptic Gregorian ordinal of a date; 0001-01-01 has ordinal 1. -/
def date_ordinal (y m d : Nat) : Nat :=
  days_before_year y + days_before_month y m + d

/-- `datetime.date(y, m, d).weekday()`: Monday = 0 … Sunday = 6. -/
def weekday (y m d : Nat) : Nat := (date_ordinal y m d + 6) % 7

/-! ## The month grid (`calendar.Calendar(firstweekday=MONDAY).monthdayscalendar`) -/

/-- The flat cell list produced by `Calendar.itermonthdays`: leading zeros
for the days before the 1st (Monday-first), the day numbers, then trailing
zeros completing the last week. -/
def month_cells (y m : Nat) : List Nat :=
  let off := weekday y m 1
  let n := days_in_month y m
  List.replicate off 0 ++ List.range' 1 n ++
    List.replicate ((7 - (off + n) % 7) % 7) 0

/-- Fuel-driven chunking of a cell list into weeks of 7 (fuel ≥ length
suffices; the fallback arm is never reached then). -/
def chunks7_go : Nat → List Nat → List (List Nat)
  | _, [] => []
  | 0, l => [l]
  | fuel + 1, a :: l => ((a :: l).take 7) :: chunks7_go fuel ((a :: l).drop 7)

/-- Split a flat cell list into weeks of 7 cells. -/
def chunks7 (l : List Nat) : List (List Nat) := chunks7_go l.length l

/-- `cal.monthdayscalendar(year, month)`: the weeks of the month, each a
list of 7 cells, `0` marking an out-of-month slot. -/
def month_weeks (y m : Nat) : List (List Nat) := chunks7 (month_cells y m)

/-! ## Data model of the service -/

/-- The fields of a parsed `datetime` that the service uses. -/
structure PyDate where
  year : Nat
  month : Nat
  day : Nat
deriving DecidableEq

/-- The three `HTTPException(status_code=400, ...)` failures of the service,
carried structurally. -/
inductive ApiError where
  /-- `_parse_dates` failure: carries the offending literal. -/
  | invalidDate (s : Str)
  /-- "No dates provided". -/
  | noDates
  /-- "Dates span multiple months": carries the formatted month keys. -/
  | multiMonth (months : List Str)
deriving DecidableEq

/-- The detail f-string of the invalid-date error in `_parse_dates`. -/
def invalid_detail (s : Str) : Str :=
  str "Invalid date \"" ++ s ++ str "\". Expected format: DD-MM-YYYY (e.g. 14-03-2025)"

/-- The success response model (`CalendarResponse`). -/
structure CalendarResponse where
  month : Str
  message : Str
deriving DecidableEq

/-- Decidable equality of results, for evaluating concrete runs. -/
instance {e a : Type} [DecidableEq e] [DecidableEq a] : DecidableEq (Except e a) :=
  fun x y =>
    match x, y with
    | .error e1, .error e2 =>
      if h : e1 = e2 then isTrue (by rw [h]) else
        isFalse (fun hc => h (Except.error.inj hc))
    | .ok a1, .ok a2 =>
      if h : a1 = a2 then isTrue (by rw [h]) else
        isFalse (fun hc => h (Except.ok.inj hc))
    | .error _, .ok _ => isFalse (fun hc => Except.noConfusion hc)
    | .ok _, .error _ => isFalse (fun hc => Except.noConfusion hc)

/-! ## `_parse_dates`: `datetime.strptime(s, "%d-%m-%Y")`

CPython's `_strptime` compiles the format to the anchored regex
`(3[01]|[12]\d|0[1-9]|[1-9])-(1[0-2]|0[1-9]|[1-9])-(\d\d\d\d)` (so one- or
two-digit day and month are accepted, the year takes exactly four digits,
and the whole string must be consumed), then builds the date, which raises
`ValueError` unless `1 ≤ year` and `day ≤ days_in_month`.  Because the
fields are all-digit and the separators are literal `-`, the regex match
succeeds exactly when the maximal leading digit runs form the three
tokens below with the indicated lengths and value ranges. -/

/-- `datetime.strptime(s, "%d-%m-%Y")`, returning the date fields, or
`none` where Python raises `ValueError`. -/
def parse_date (s : Str) : Option PyDate :=
  let dTok := s.takeWhile Char.isDigit
  match s.dropWhile Char.isDigit with
  | '-' :: r2 =>
    let mTok := r2.takeWhile Char.isDigit
    match r2.dropWhile Char.isDigit with
    | '-' :: yTok =>
      if yTok.all Char.isDigit = true ∧ yTok.length = 4 ∧
          1 ≤ dTok.length ∧ dTok.length ≤ 2 ∧ 1 ≤ mTok.length ∧ mTok.length ≤ 2 then
        let d := nat_of_digits dTok
        let m := nat_of_digits mTok
        let y := nat_of_digits yTok
        if 1 ≤ d ∧ 1 ≤ m ∧ m ≤ 12 ∧ 1 ≤ y ∧ d ≤ days_in_month y m then
          some ⟨y, m, d⟩
        else none
      else none
    | _ => none
  | _ => none

/-- `_parse_dates`: parse all entries in order, aborting on the first
invalid one with its `HTTPException`. -/
def parse_dates : List Str → Except ApiError (List PyDate)
  | [] => .ok []
  | s :: rest =>
    match parse_date s with
    | none => .error (.invalidDate s)
    | some dt => (parse_dates rest).map (dt :: ·)

/-! ## `_group_by_month`

A Python `dict` preserves key insertion order, so the grouping is an
association list extended at the end for new keys.  The per-group Python
`set` is only ever read through membership, and is modelled as the list of
days in first-insertion order without duplicates. -/

/-- `grouped.setdefault((y, m), set()).add(d)`. -/
def insert_day (k : Nat × Nat) (d : Nat) :
    List ((Nat × Nat) × List Nat) → List ((Nat × Nat) × List Nat)
  | [] => [(k, [d])]
  | (k', ds) :: rest =>
    if k' = k then (k', if d ∈ ds then ds else ds ++ [d]) :: rest
    else (k', ds) :: insert_day k d rest

/-- `_group_by_month`. -/
def group_by_month (dts : List PyDate) : List ((Nat × Nat) × List Nat) :=
  dts.foldl (fun acc dt => insert_day (dt.year, dt.month) dt.day acc) []

/-- Deduplicate a key list keeping the first occurrence of each key, in
order; this is the key order of a Python `dict` built by insertion. -/
def first_occurrences : List (Nat × Nat) → List (Nat × Nat) :=
  List.foldl (fun acc k => if k ∈ acc then acc else acc ++ [k]) []

/-! ## `_build_calendar_message` -/

/-- The fixed Monday-first weekday labels `WEEKDAYS_RU`. -/
def WEEKDAYS_RU : List Str :=
  [str "Пн", str "Вт", str "Ср", str "Чт", str "Пт", str "Сб", str "Вс"]

/-- The inner `cell` function: empty slot → empty string, marked day →
the marker verbatim, otherwise the decimal day number. -/
def cell (marked : List Nat) (emoji : Str) (d : Nat) : Str :=
  if d = 0 then [] else if d ∈ marked then emoji else nat_chars d

/-- One week row: join the 7 cell renderings with single spaces, `strip`,
then drop empty tokens and re-join (`" ".join(part for part in
row.split(" ") if part != "")`). -/
def build_row (marked : List Nat) (emoji : Str) (week : List Nat) : Str :=
  let row := py_strip (join_sp (week.map (cell marked emoji)))
  join_sp ((split_char ' ' row).filter (· ≠ []))

/-- The header line `f"Календарь активностей для {year:04d}-{month:02d}:"`. -/
def header_line (y m : Nat) : Str :=
  str "Календарь активностей для " ++ month_key y m ++ [':']

/-- The `lines` list of `_build_calendar_message`: header, weekday labels,
two blank lines, then every non-empty week row (the source appends each
`row` under `if row:`, i.e. maps and filters out empty rows). -/
def build_calendar_lines (y m : Nat) (marked : List Nat) (emoji : Str) : List Str :=
  [header_line y m, join_sp WEEKDAYS_RU, [], []] ++
    ((month_weeks y m).map (build_row marked emoji)).filter (· ≠ [])

/-- `_build_calendar_message`: the joined lines wrapped in the Telegram
monospace fence. -/
def build_calendar_message (y m : Nat) (marked : List Nat) (emoji : Str) : Str :=
  str "```text\n" ++ join_nl (build_calendar_lines y m marked emoji) ++ str "\n```"

/-! ## `make_calendar` (POST /calendar) -/

/-- The request default for `emoji`. -/
def DEFAULT_EMOJI : Str := str "✅"

/-- `make_calendar`: parse, group, then the three-way case split of the
source (`if not grouped`, `if len(grouped) > 1`, else render the single
group, which is the first and only item of the dict). -/
def make_calendar (dates : List Str) (emoji : Str) :
    Except ApiError CalendarResponse :=
  match parse_dates dates with
  | .error e => .error e
  | .ok dts =>
    match group_by_month dts with
    | [] => .error .noDates
    | [((y, m), marked)] =>
      .ok ⟨month_key y m, build_calendar_message y m marked emoji⟩
    | grouped => .error (.multiMonth (grouped.map (fun e => month_key e.1.1 e.1.2)))

/-! ## Spec-side date-format predicates (for claim C1)

`strict_valid` transcribes the spec's words: exactly two-digit day, exactly
two-digit month, exactly four-digit year, denoting a real calendar date.
`flex_valid` transcribes the amended claim: one- or two-digit day and
month.  Both are written over a dash-split of the string, independently of
the scanner used by `parse_date`. -/

/-- The spec's strict `DD-MM-YYYY` pattern plus real-date validity. -/
def strict_valid (s : Str) : Bool :=
  match s with
  | [d1, d2, '-', m1, m2, '-', y1, y2, y3, y4] =>
    [d1, d2, m1, m2, y1, y2, y3, y4].all Char.isDigit &&
      (let d := nat_of_digits [d1, d2]
       let m := nat_of_digits [m1, m2]
       let y := nat_of_digits [y1, y2, y3, y4]
       decide (1 ≤ d ∧ 1 ≤ m ∧ m ≤ 12 ∧ 1 ≤ y ∧ d ≤ days_in_month y m))
  | _ => false

/-- The amended pattern: day and month of one or two digits, year of
exactly four digits, denoting a real calendar date. -/
def flex_valid (s : Str) : Bool :=
  match split_char '-' s with
  | [dT, mT, yT] =>
    dT.all Char.isDigit && mT.all Char.isDigit && yT.all Char.isDigit &&
      decide (1 ≤ dT.length ∧ dT.length ≤ 2 ∧ 1 ≤ mT.length ∧ mT.length ≤ 2 ∧
        yT.length = 4) &&
      (let d := nat_of_digits dT
       let m := nat_of_digits mT
       let y := nat_of_digits yT
       decide (1 ≤ d ∧ 1 ≤ m ∧ m ≤ 12 ∧ 1 ≤ y ∧ d ≤ days_in_month y m))
  | _ => false

/-- The non-empty tokens of a single-space split (`row.split(" ")` with
empty parts removed). -/
def sp_tokens (s : Str) : List Str := (split_char ' ' s).filter (· ≠ [])

/-- The only whitespace character occurring in `s` is a plain space. -/
def sp_only (s : Str) : Prop := ∀ x ∈ s, is_space x = true → x = ' '

/-- First value stored under key `k` (Python `grouped[k]`). -/
def lookup_group : List ((Nat × Nat) × List Nat) → Nat × Nat → Option (List Nat)
  | [], _ => none
  | (k', ds) :: rest, k => if k' = k then some ds else lookup_group rest k

/-! ## Lemmas about digits and decimal rendering -/

theorem digit_char_isDigit {d : Nat} (h : d < 10) : (digit_char d).isDigit = true := by
  interval_cases d <;> decide

theorem digit_char_toNat {d : Nat} (h : d < 10) : (digit_char d).toNat = 48 + d := by
  interval_cases d <;> decide

theorem isDigit_not_space {x : Char} (h : x.isDigit = true) : is_space x = false := by
  rw [is_space, decide_eq_false_iff_not]
  rintro (rfl | rfl | rfl | rfl | rfl | rfl) <;> exact absurd h (by decide)

theorem isDigit_ne_dash {x : Char} (h : x.isDigit = true) : x ≠ '-' := by
  rintro rfl
  exact absurd h (by decide)

theorem nat_chars_go_zero : ∀ (fuel : Nat) (acc : Str), nat_chars_go fuel 0 acc = acc
  | 0, _ => rfl
  | _ + 1, _ => by simp [nat_chars_go]

theorem nat_chars_go_mem : ∀ (fuel n : Nat) (acc : Str),
    ∀ x ∈ nat_chars_go fuel n acc, x.isDigit = true ∨ x ∈ acc := by
  intro fuel
  induction fuel with
  | zero => exact fun n acc x hx => Or.inr hx
  | succ fuel ih =>
    intro n acc x hx
    rw [nat_chars_go] at hx
    split at hx
    · exact Or.inr hx
    · rcases ih (n / 10) _ x hx with h | h
      · exact Or.inl h
      · rcases List.mem_cons.mp h with h' | h'
        · exact Or.inl (h' ▸ digit_char_isDigit (Nat.mod_lt _ (by norm_num)))
        · exact Or.inr h'

theorem nat_chars_mem {n : Nat} : ∀ x ∈ nat_chars n, x.isDigit = true := by
  intro x hx
  rw [nat_chars] at hx
  split at hx
  · rw [List.mem_singleton] at hx
    subst hx
    decide
  · rcases nat_chars_go_mem n n [] x hx with h | h
    · exact h
    · simp at h

theorem nat_chars_go_head : ∀ (fuel n : Nat) (acc : Str), 0 < n → n ≤ fuel →
    ∃ m rest, 0 < m ∧ m < 10 ∧ nat_chars_go fuel n acc = digit_char m :: (rest ++ acc) := by
  intro fuel
  induction fuel with
  | zero => intro n acc h1 h2; omega
  | succ fuel ih =>
    intro n acc h1 h2
    rw [nat_chars_go, if_neg (by omega)]
    by_cases hn : n < 10
    · refine ⟨n, [], h1, hn, ?_⟩
      rw [Nat.div_eq_of_lt hn, nat_chars_go_zero, Nat.mod_eq_of_lt hn]
      simp
    · obtain ⟨m, rest, hm1, hm2, heq⟩ :=
        ih (n / 10) (digit_char (n % 10) :: acc) (by omega) (by omega)
      exact ⟨m, rest ++ [digit_char (n % 10)], hm1, hm2, by simp [heq]⟩

theorem nat_chars_head {n : Nat} (h : 0 < n) :
    ∃ m rest, 0 < m ∧ m < 10 ∧ nat_chars n = digit_char m :: rest := by
  obtain ⟨m, rest, h1, h2, heq⟩ := nat_chars_go_head n n [] h le_rfl
  rw [nat_chars, if_neg (by omega)]
  exact ⟨m, rest, h1, h2, by simpa using heq⟩

theorem nat_chars_ne_nil (n : Nat) : nat_chars n ≠ [] := by
  by_cases h : n = 0
  · subst h; decide
  · obtain ⟨m, rest, _, _, heq⟩ := nat_chars_head (Nat.pos_of_ne_zero h)
    simp [heq]

theorem nat_chars_head_ne_zero {n : Nat} (h : 0 < n) {c : Char} {rest : Str}
    (heq : nat_chars n = c :: rest) : c ≠ '0' := by
  obtain ⟨m, rest', hm1, hm2, heq'⟩ := nat_chars_head h
  rw [heq'] at heq
  have hc : c = digit_char m := (List.cons.injEq _ _ _ _ ▸ heq).1.symm
  subst hc
  interval_cases m <;> decide

theorem nat_chars_go_append : ∀ (fuel n : Nat) (acc : Str),
    nat_chars_go fuel n acc = nat_chars_go fuel n [] ++ acc := by
  intro fuel
  induction fuel with
  | zero => simp [nat_chars_go]
  | succ fuel ih =>
    intro n acc
    rw [nat_chars_go, nat_chars_go]
    split
    · simp
    · rw [ih (n / 10) (digit_char (n % 10) :: acc), ih (n / 10) [digit_char (n % 10)]]
      simp

theorem nat_chars_go_val : ∀ (fuel n : Nat), n ≤ fuel →
    nat_of_digits (nat_chars_go fuel n []) = n := by
  intro fuel
  induction fuel with
  | zero => intro n h; rw [Nat.le_zero.mp h]; rfl
  | succ fuel ih =>
    intro n h
    by_cases hn : n = 0
    · subst hn; rfl
    · rw [nat_chars_go, if_neg hn, nat_chars_go_append]
      unfold nat_of_digits
      rw [List.foldl_append]
      have hval : nat_of_digits (nat_chars_go fuel (n / 10) []) = n / 10 := ih _ (by omega)
      unfold nat_of_digits at hval
      rw [hval]
      simp only [List.foldl_cons, List.foldl_nil]
      rw [digit_char_toNat (Nat.mod_lt _ (by norm_num))]
      omega

theorem nat_of_digits_nat_chars (n : Nat) : nat_of_digits (nat_chars n) = n := by
  by_cases h : n = 0
  · subst h; rfl
  · rw [nat_chars, if_neg h]
    exact nat_chars_go_val n n le_rfl

/-! ## Lemmas about `split_char`, `join_with` and `py_strip` -/

theorem split_char_ne_nil (c : Char) (s : Str) : split_char c s ≠ [] := by
  induction s with
  | nil => simp [split_char]
  | cons a s ih =>
    simp only [split_char]
    split
    · simp
    · split
      · simp
      · simp

theorem split_char_of_not_mem {c : Char} {s : Str} (h : c ∉ s) : split_char c s = [s] := by
  induction s with
  | nil => rfl
  | cons a s ih =>
    simp only [List.mem_cons, not_or] at h
    have hne : ¬ a = c := fun hh => h.1 hh.symm
    simp only [split_char, if_neg hne, ih h.2]

theorem split_char_append {c : Char} {a : Str} (b : Str) (h : c ∉ a) :
    split_char c (a ++ c :: b) = a :: split_char c b := by
  induction a with
  | nil => simp [split_char]
  | cons x xs ih =>
    simp only [List.mem_cons, not_or] at h
    have hne : ¬ x = c := fun hh => h.1 hh.symm
    simp only [List.cons_append, split_char, if_neg hne, List.append_eq, ih h.2]

theorem split_char_join_with {c : Char} : ∀ {parts : List Str}, parts ≠ [] →
    (∀ p ∈ parts, c ∉ p) → split_char c (join_with [c] parts) = parts
  | [], h, _ => absurd rfl h
  | [p], _, hf => by
    simpa [join_with] using split_char_of_not_mem (hf p (by simp))
  | p :: q :: ps, _, hf => by
    simp only [join_with]
    have harr : p ++ [c] ++ join_with [c] (q :: ps) = p ++ c :: join_with [c] (q :: ps) := by
      simp
    rw [harr, split_char_append _ (hf p (by simp))]
    rw [split_char_join_with (by simp) (fun r hr => hf r (List.mem_cons_of_mem _ hr))]

theorem join_with_snoc (sep x : Str) : ∀ (l : List Str), l ≠ [] →
    join_with sep (l ++ [x]) = join_with sep l ++ sep ++ x
  | [], h => absurd rfl h
  | [p], _ => by simp [join_with]
  | p :: q :: ps, _ => by
    have ih := join_with_snoc sep x (q :: ps) (by simp)
    calc join_with sep ((p :: q :: ps) ++ [x])
        = p ++ sep ++ join_with sep ((q :: ps) ++ [x]) := rfl
      _ = p ++ sep ++ (join_with sep (q :: ps) ++ sep ++ x) := by rw [ih]
      _ = join_with sep (p :: q :: ps) ++ sep ++ x := by simp [join_with]

theorem mem_join_with {x : Char} {sep : Str} : ∀ {parts : List Str},
    x ∈ join_with sep parts → x ∈ sep ∨ ∃ p ∈ parts, x ∈ p
  | [], h => by simp [join_with] at h
  | [p], h => by
    simp only [join_with] at h
    exact Or.inr ⟨p, by simp, h⟩
  | p :: q :: ps, h => by
    simp only [join_with, List.append_assoc, List.mem_append] at h
    rcases h with h | h | h
    · exact Or.inr ⟨p, by simp, h⟩
    · exact Or.inl h
    · rcases mem_join_with h with h' | ⟨r, hr, hxr⟩
      · exact Or.inl h'
      · exact Or.inr ⟨r, List.mem_cons_of_mem _ hr, hxr⟩

theorem join_with_decomp (sep : Str) : ∀ {parts : List Str} {p : Str}, p ∈ parts →
    ∃ a b, join_with sep parts = a ++ p ++ b
  | [], p, h => absurd h (by simp)
  | [q], p, h => by
    rw [List.mem_singleton] at h
    exact ⟨[], [], by simp [join_with, h]⟩
  | q :: r :: ps, p, h => by
    rcases List.mem_cons.mp h with h1 | h2
    · refine ⟨[], sep ++ join_with sep (r :: ps), ?_⟩
      simp [join_with, h1]
    · obtain ⟨a, b, hab⟩ := join_with_decomp sep h2
      refine ⟨q ++ sep ++ a, b, ?_⟩
      simp only [join_with, hab]
      simp

theorem split_char_subset {c : Char} {s : Str} : ∀ {p : Str}, p ∈ split_char c s →
    ∀ {x : Char}, x ∈ p → x ∈ s := by
  induction s with
  | nil =>
    intro p hp x hx
    simp only [split_char, List.mem_singleton] at hp
    subst hp
    simp at hx
  | cons a s ih =>
    intro p hp x hx
    simp only [split_char] at hp
    split at hp
    · rcases List.mem_cons.mp hp with h | h
      · subst h; simp at hx
      · exact List.mem_cons_of_mem _ (ih h hx)
    · rcases hsplit : split_char c s with _ | ⟨t, ts⟩
      · exact absurd hsplit (split_char_ne_nil c s)
      · rw [hsplit] at hp
        rcases List.mem_cons.mp hp with h | h
        · subst h
          rcases List.mem_cons.mp hx with h' | h'
          · simp [h']
          · exact List.mem_cons_of_mem _ (ih (hsplit ▸ List.mem_cons_self t ts) h')
        · exact List.mem_cons_of_mem _ (ih (hsplit ▸ List.mem_cons_of_mem _ h) hx)

theorem split_char_snoc_sep (c : Char) : ∀ (t : Str),
    split_char c (t ++ [c]) = split_char c t ++ [[]]
  | [] => by simp [split_char]
  | a :: t => by
    by_cases h : a = c
    · simp only [List.cons_append, split_char, if_pos h, List.append_eq,
        split_char_snoc_sep c t]
    · simp only [List.cons_append, split_char, if_neg h, List.append_eq,
        split_char_snoc_sep c t]
      rcases hsplit : split_char c t with _ | ⟨u, us⟩
      · exact absurd hsplit (split_char_ne_nil c t)
      · simp

/-! ## Whitespace collapse: the `strip` / `split` / re-`join` pipeline -/

theorem sp_tokens_dropWhile {s : Str} (h : sp_only s) :
    sp_tokens (s.dropWhile is_space) = sp_tokens s := by
  induction s with
  | nil => rfl
  | cons a s ih =>
    by_cases ha : is_space a = true
    · have ha' : a = ' ' := h a (by simp) ha
      subst ha'
      rw [List.dropWhile_cons_of_pos ha, ih (fun x hx hsx => h x (List.mem_cons_of_mem _ hx) hsx)]
      simp [sp_tokens, split_char]
    · rw [List.dropWhile_cons_of_neg ha]

theorem sp_tokens_rdropWhile {s : Str} (h : sp_only s) :
    sp_tokens (List.rdropWhile is_space s) = sp_tokens s := by
  induction s using List.reverseRecOn with
  | nil => rfl
  | append_singleton t x ih =>
    by_cases hx : is_space x = true
    · have hx' : x = ' ' := h x (by simp) hx
      subst hx'
      rw [List.rdropWhile_concat_pos _ _ _ hx,
        ih (fun y hy hs => h y (List.mem_append_left _ hy) hs)]
      simp [sp_tokens, split_char_snoc_sep, List.filter_append]
    · rw [List.rdropWhile_concat_neg _ _ _ hx]

theorem sp_tokens_py_strip {s : Str} (h : sp_only s) :
    sp_tokens (py_strip s) = sp_tokens s := by
  unfold py_strip
  have h2 : sp_only (s.dropWhile is_space) :=
    fun x hx hs => h x ((List.dropWhile_sublist _).subset hx) hs
  rw [sp_tokens_rdropWhile h2, sp_tokens_dropWhile h]

theorem sp_tokens_join_sp {parts : List Str} (h : ∀ p ∈ parts, ' ' ∉ p) :
    sp_tokens (join_sp parts) = parts.filter (· ≠ []) := by
  cases parts with
  | nil => rfl
  | cons p ps =>
    unfold sp_tokens join_sp
    rw [split_char_join_with (by simp) h]

/-- Under a whitespace-free marker, a week row is exactly the non-empty
cell renderings joined by single spaces. -/
theorem build_row_eq {marked : List Nat} {emoji : Str} (hws : no_ws emoji = true)
    (w : List Nat) :
    build_row marked emoji w = join_sp ((w.map (cell marked emoji)).filter (· ≠ [])) := by
  have hcell : ∀ p ∈ w.map (cell marked emoji), ∀ x ∈ p, is_space x = false := by
    intro p hp x hx
    rw [List.mem_map] at hp
    obtain ⟨d, _, hd⟩ := hp
    subst hd
    unfold cell at hx
    split at hx
    · simp at hx
    · split at hx
      · rw [no_ws, List.all_eq_true] at hws
        simpa using hws x hx
      · exact isDigit_not_space (nat_chars_mem x hx)
  have hsp : sp_only (join_sp (w.map (cell marked emoji))) := by
    intro x hx hs
    rcases mem_join_with hx with h' | ⟨p, hp, hxp⟩
    · simpa using h'
    · rw [hcell p hp x hxp] at hs
      exact absurd hs (by simp)
  have hfree : ∀ p ∈ w.map (cell marked emoji), ' ' ∉ p := by
    intro p hp hmem
    have := hcell p hp ' ' hmem
    simp [is_space] at this
  show join_sp (sp_tokens (py_strip (join_sp (w.map (cell marked emoji))))) = _
  rw [sp_tokens_py_strip hsp, sp_tokens_join_sp hfree]

/-! ## Lemmas about the month grid -/

theorem days_in_month_le (y m : Nat) : days_in_month y m ≤ 31 := by
  unfold days_in_month
  split
  · split <;> omega
  · split <;> omega

theorem days_in_month_pos (y m : Nat) : 1 ≤ days_in_month y m := by
  unfold days_in_month
  split
  · split <;> omega
  · split <;> omega

theorem days_in_month_lb (y m : Nat) : 28 ≤ days_in_month y m := by
  unfold days_in_month
  split
  · split <;> omega
  · split <;> omega

theorem weekday_lt (y m d : Nat) : weekday y m d < 7 :=
  Nat.mod_lt _ (by norm_num)

theorem chunks7_go_flatten : ∀ (fuel : Nat) (l : List Nat), l.length ≤ fuel →
    (chunks7_go fuel l).flatten = l := by
  intro fuel
  induction fuel with
  | zero =>
    intro l h
    rw [List.length_eq_zero.mp (Nat.le_zero.mp h)]
    rfl
  | succ fuel ih =>
    intro l h
    match l with
    | [] => rfl
    | a :: l' =>
      rw [chunks7_go, List.flatten_cons, ih _ (by simp at h ⊢; omega)]
      exact List.take_append_drop 7 (a :: l')

theorem chunks7_go_length : ∀ (fuel : Nat) (l : List Nat), l.length ≤ fuel →
    (chunks7_go fuel l).length = (l.length + 6) / 7 := by
  intro fuel
  induction fuel with
  | zero =>
    intro l h
    rw [List.length_eq_zero.mp (Nat.le_zero.mp h)]
    rfl
  | succ fuel ih =>
    intro l h
    match l with
    | [] => rfl
    | a :: l' =>
      rw [chunks7_go, List.length_cons, ih _ (by simp at h ⊢; omega)]
      simp only [List.length_drop, List.length_cons]
      omega

theorem chunks7_go_mem : ∀ (fuel : Nat) (l w : List Nat), l.length ≤ fuel →
    w ∈ chunks7_go fuel l → ∃ k, w = (l.drop (7 * k)).take 7 ∧ 7 * k < l.length := by
  intro fuel
  induction fuel with
  | zero =>
    intro l w h hw
    rw [List.length_eq_zero.mp (Nat.le_zero.mp h)] at hw
    simp [chunks7_go] at hw
  | succ fuel ih =>
    intro l w h hw
    rcases l with _ | ⟨a, l'⟩
    · simp [chunks7_go] at hw
    · rw [chunks7_go] at hw
      rcases List.mem_cons.mp hw with h1 | h2
      · exact ⟨0, by simpa using h1, by simp⟩
      · obtain ⟨k, hk, hkl⟩ := ih _ _ (by simp at h ⊢; omega) h2
        have hd : ((a :: l').drop 7).length = l'.length + 1 - 7 := by
          simp
        rw [hd] at hkl
        refine ⟨k + 1, ?_, ?_⟩
        · rw [hk, List.drop_drop]
          have h77 : 7 + 7 * k = 7 * (k + 1) := by ring
          rw [h77]
        · simp only [List.length_cons]
          omega

theorem month_cells_length (y m : Nat) : (month_cells y m).length =
    weekday y m 1 + days_in_month y m +
      (7 - (weekday y m 1 + days_in_month y m) % 7) % 7 := by
  simp [month_cells]
  omega

theorem month_cells_length_mod (y m : Nat) : (month_cells y m).length % 7 = 0 := by
  rw [month_cells_length]
  omega

theorem month_weeks_count (y m : Nat) :
    (month_weeks y m).length = 4 ∨ (month_weeks y m).length = 5 ∨
      (month_weeks y m).length = 6 := by
  have hoff := weekday_lt y m 1
  have hlb := days_in_month_lb y m
  have hub := days_in_month_le y m
  rw [month_weeks, chunks7, chunks7_go_length _ _ le_rfl, month_cells_length]
  omega

theorem mem_month_cells {y m d : Nat} (h1 : 1 ≤ d) (h2 : d ≤ days_in_month y m) :
    d ∈ month_cells y m := by
  unfold month_cells
  simp only [List.mem_append, List.mem_range'_1]
  omega

theorem count_month_cells {y m d : Nat} (h1 : 1 ≤ d) (h2 : d ≤ days_in_month y m) :
    (month_cells y m).count d = 1 := by
  unfold month_cells
  rw [List.count_append, List.count_append, List.count_replicate, List.count_replicate]
  have hz : ¬ ((0 == d) = true) := by
    simp only [beq_iff_eq]
    omega
  rw [if_neg hz, if_neg hz]
  have hone : List.count d (List.range' 1 (days_in_month y m)) = 1 :=
    List.count_eq_one_of_mem (List.nodup_range' _ _) (by rw [List.mem_range'_1]; omega)
  omega

theorem month_weeks_flatten (y m : Nat) : (month_weeks y m).flatten = month_cells y m :=
  chunks7_go_flatten _ _ le_rfl

theorem month_cells_eq (y m : Nat) : month_cells y m =
    List.replicate (weekday y m 1) 0 ++ List.range' 1 (days_in_month y m) ++
      List.replicate ((7 - (weekday y m 1 + days_in_month y m) % 7) % 7) 0 := rfl

theorem window_has_day {off n pad k : Nat} (hoff : off < 7) (hpad : pad < 7)
    (hpos : 1 ≤ n) (hmod : (off + n + pad) % 7 = 0) (hkl : 7 * k < off + n + pad) :
    ∃ d ∈ ((List.replicate off 0 ++ List.range' 1 n ++
      List.replicate pad 0).drop (7 * k)).take 7, d ≠ 0 := by
  rw [List.append_assoc]
  have hwin : 7 * k + 7 ≤ off + n + pad := by omega
  have hi4 : max (7 * k) off < 7 * k + 7 := max_lt (by omega) (by omega)
  have hi1 : max (7 * k) off < off + n := max_lt (by omega) (by omega)
  have hi2 : 7 * k ≤ max (7 * k) off := le_max_left _ _
  have hi3 : off ≤ max (7 * k) off := le_max_right _ _
  set i := max (7 * k) off
  have hlen : (List.replicate off 0 ++
      (List.range' 1 n ++ List.replicate pad 0)).length = off + (n + pad) := by
    simp
  refine ⟨i - off + 1, ?_, by omega⟩
  refine List.mem_iff_getElem.mpr ⟨i - 7 * k, ?_, ?_⟩
  · simp only [List.length_take, List.length_drop, hlen, lt_min_iff]
    constructor <;> omega
  · rw [List.getElem_take, List.getElem_drop]
    have hidx : 7 * k + (i - 7 * k) = i := by omega
    simp only [hidx]
    rw [List.getElem_append_right (by simpa using hi3)]
    simp only [List.length_replicate]
    rw [List.getElem_append_left (by simp; omega)]
    rw [List.getElem_range']
    omega

theorem week_has_day {y m : Nat} {w : List Nat} (hw : w ∈ month_weeks y m) :
    ∃ d ∈ w, d ≠ 0 := by
  obtain ⟨k, hk, hkl⟩ := chunks7_go_mem _ _ w le_rfl hw
  rw [month_cells_eq] at hk hkl
  simp only [List.length_append, List.length_replicate, List.length_range'] at hkl
  subst hk
  exact window_has_day (weekday_lt y m 1) (by omega) (days_in_month_pos y m)
    (by omega) (by omega)

/-! ## Lemmas about `parse_date` -/

theorem digits_not_dash {t : Str} (h : t.all Char.isDigit = true) : '-' ∉ t := by
  rw [List.all_eq_true] at h
  intro hm
  exact absurd (h _ hm) (by decide)

theorem takeWhile_digits_dash {a : Str} (b : Str) (h : a.all Char.isDigit = true) :
    (a ++ '-' :: b).takeWhile Char.isDigit = a ∧
      (a ++ '-' :: b).dropWhile Char.isDigit = '-' :: b := by
  rw [List.all_eq_true] at h
  constructor
  · rw [List.takeWhile_append_of_pos h, List.takeWhile_cons_of_neg (by decide)]
    simp
  · rw [List.dropWhile_append_of_pos h, List.dropWhile_cons_of_neg (by decide)]

theorem split_char_parts (c : Char) (s : Str) :
    join_with [c] (split_char c s) = s ∧ ∀ p ∈ split_char c s, c ∉ p := by
  induction s with
  | nil => exact ⟨rfl, by simp [split_char]⟩
  | cons a s ih =>
    by_cases hac : a = c
    · subst hac
      rw [split_char, if_pos rfl]
      rcases hsplit : split_char a s with _ | ⟨t, ts⟩
      · exact absurd hsplit (split_char_ne_nil a s)
      · rw [hsplit] at ih
        refine ⟨?_, ?_⟩
        · show [] ++ [a] ++ join_with [a] (t :: ts) = a :: s
          simp [ih.1]
        · intro p hp
          rcases List.mem_cons.mp hp with h1 | h1
          · subst h1; simp
          · exact ih.2 p (hsplit ▸ h1)
    · rw [split_char, if_neg hac]
      rcases hsplit : split_char c s with _ | ⟨t, ts⟩
      · exact absurd hsplit (split_char_ne_nil c s)
      · rw [hsplit] at ih
        rcases ts with _ | ⟨u, us⟩
        · refine ⟨?_, ?_⟩
          · show a :: t = a :: s
            simpa [join_with] using ih.1
          · intro p hp
            rw [List.mem_singleton] at hp
            subst hp
            simp only [List.mem_cons, not_or]
            exact ⟨fun hh => hac hh.symm, ih.2 t (by simp)⟩
        · refine ⟨?_, ?_⟩
          · show (a :: t) ++ [c] ++ join_with [c] (u :: us) = a :: s
            have h1 := ih.1
            rw [show join_with [c] (t :: u :: us) =
              t ++ [c] ++ join_with [c] (u :: us) from rfl] at h1
            simp only [List.cons_append, List.append_assoc] at h1 ⊢
            rw [h1]
          · intro p hp
            rcases List.mem_cons.mp hp with h1 | h1
            · subst h1
              simp only [List.mem_cons, not_or]
              exact ⟨fun hh => hac hh.symm, ih.2 t (by simp)⟩
            · exact ih.2 p (List.mem_cons_of_mem _ h1)

theorem parse_date_some_char {s : Str} {dt : PyDate} (h : parse_date s = some dt) :
    ∃ dTok mTok yTok, s = dTok ++ '-' :: mTok ++ '-' :: yTok ∧
      dTok.all Char.isDigit = true ∧ mTok.all Char.isDigit = true ∧
      yTok.all Char.isDigit = true ∧
      1 ≤ dTok.length ∧ dTok.length ≤ 2 ∧ 1 ≤ mTok.length ∧ mTok.length ≤ 2 ∧
      yTok.length = 4 ∧
      dt = ⟨nat_of_digits yTok, nat_of_digits mTok, nat_of_digits dTok⟩ ∧
      1 ≤ dt.day ∧ 1 ≤ dt.month ∧ dt.month ≤ 12 ∧ 1 ≤ dt.year ∧
      dt.day ≤ days_in_month dt.year dt.month := by
  unfold parse_date at h
  split at h
  case _ r2 heq2 =>
    split at h
    case _ yTok heq3 =>
      dsimp only at h
      split at h
      case isTrue hcond =>
        split at h
        case isTrue hval =>
          rw [Option.some.injEq] at h
          subst h
          refine ⟨s.takeWhile Char.isDigit, r2.takeWhile Char.isDigit, yTok, ?_, ?_, ?_,
            hcond.1, hcond.2.2.1, hcond.2.2.2.1, hcond.2.2.2.2.1, hcond.2.2.2.2.2,
            hcond.2.1, rfl, hval.1, hval.2.1, hval.2.2.1, hval.2.2.2.1, hval.2.2.2.2⟩
          · have hs : s = List.takeWhile Char.isDigit s ++ '-' :: r2 := by
              conv_lhs => rw [← List.takeWhile_append_dropWhile Char.isDigit s, heq2]
            have hr : r2 = List.takeWhile Char.isDigit r2 ++ '-' :: yTok := by
              conv_lhs => rw [← List.takeWhile_append_dropWhile Char.isDigit r2, heq3]
            conv_lhs => rw [hs, hr]
            simp [List.append_assoc]
          · rw [List.all_eq_true]
            exact fun x hx => List.mem_takeWhile_imp hx
          · rw [List.all_eq_true]
            exact fun x hx => List.mem_takeWhile_imp hx
        case isFalse => exact absurd h (by simp)
      case isFalse => exact absurd h (by simp)
    case _ => exact absurd h (by simp)
  case _ => exact absurd h (by simp)

theorem parse_date_of_tokens {dTok mTok yTok : Str}
    (hd : dTok.all Char.isDigit = true) (hm : mTok.all Char.isDigit = true)
    (hy : yTok.all Char.isDigit = true)
    (hlen : 1 ≤ dTok.length ∧ dTok.length ≤ 2 ∧ 1 ≤ mTok.length ∧ mTok.length ≤ 2 ∧
      yTok.length = 4)
    (hv : 1 ≤ nat_of_digits dTok ∧ 1 ≤ nat_of_digits mTok ∧ nat_of_digits mTok ≤ 12 ∧
      1 ≤ nat_of_digits yTok ∧
      nat_of_digits dTok ≤ days_in_month (nat_of_digits yTok) (nat_of_digits mTok)) :
    parse_date (dTok ++ '-' :: (mTok ++ '-' :: yTok)) =
      some ⟨nat_of_digits yTok, nat_of_digits mTok, nat_of_digits dTok⟩ := by
  obtain ⟨ht1, ht2⟩ := takeWhile_digits_dash (mTok ++ '-' :: yTok) hd
  obtain ⟨hm1, hm2⟩ := takeWhile_digits_dash yTok hm
  unfold parse_date
  rw [ht1, ht2]
  split
  case _ r2 heqr =>
    obtain rfl : mTok ++ '-' :: yTok = r2 := by
      injection heqr
    rw [hm1, hm2]
    split
    case _ yTok2 heqy =>
      obtain rfl : yTok = yTok2 := by
        injection heqy
      dsimp only
      rw [if_pos ⟨hy, hlen.2.2.2.2, hlen.1, hlen.2.1, hlen.2.2.1, hlen.2.2.2.1⟩]
      rw [if_pos ⟨hv.1, hv.2.1, hv.2.2.1, hv.2.2.2.1, hv.2.2.2.2⟩]
    case _ hne =>
      exact absurd rfl (hne yTok)
  case _ hne =>
    exact absurd rfl (hne (mTok ++ '-' :: yTok))

theorem flex_valid_of_parse {s : Str} {dt : PyDate} (h : parse_date s = some dt) :
    flex_valid s = true := by
  obtain ⟨dT, mT, yT, hs, hd, hm, hy, h1, h2, h3, h4, h5, hdt, hv1, hv2, hv3, hv4, hv5⟩ :=
    parse_date_some_char h
  subst hs
  have hsplit : split_char '-' (dT ++ '-' :: mT ++ '-' :: yT) = [dT, mT, yT] := by
    rw [show dT ++ '-' :: mT ++ '-' :: yT = dT ++ '-' :: (mT ++ '-' :: yT) from by simp]
    rw [split_char_append _ (digits_not_dash hd)]
    rw [split_char_append _ (digits_not_dash hm)]
    rw [split_char_of_not_mem (digits_not_dash hy)]
  subst hdt
  unfold flex_valid
  rw [hsplit]
  dsimp only
  simp only [Bool.and_eq_true, decide_eq_true_eq]
  exact ⟨⟨⟨⟨hd, hm⟩, hy⟩, h1, h2, h3, h4, h5⟩, hv1, hv2, hv3, hv4, hv5⟩

theorem parse_date_isSome_eq_flex (s : Str) : (parse_date s).isSome = flex_valid s := by
  by_cases hf : flex_valid s = true
  · rw [hf]
    unfold flex_valid at hf
    split at hf
    case _ dT mT yT heq =>
      simp only [Bool.and_eq_true, decide_eq_true_eq] at hf
      obtain ⟨⟨⟨⟨hd, hm⟩, hy⟩, hlen⟩, hv⟩ := hf
      have hjoin := (split_char_parts '-' s).1
      rw [heq] at hjoin
      have hs : s = dT ++ '-' :: (mT ++ '-' :: yT) := by
        rw [← hjoin]
        simp [join_with]
      rw [hs, parse_date_of_tokens hd hm hy ⟨hlen.1, hlen.2.1, hlen.2.2.1, hlen.2.2.2.1,
        hlen.2.2.2.2⟩ hv]
      rfl
    case _ => exact absurd hf (by simp)
  · rw [Bool.not_eq_true] at hf
    rw [hf]
    cases hp : parse_date s with
    | none => rfl
    | some dt => exact absurd (flex_valid_of_parse hp) (by rw [hf]; simp)

/-! ## Lemmas about `parse_dates` -/

theorem parse_dates_append (xs ys : List Str) :
    parse_dates (xs ++ ys) = match parse_dates xs with
      | .error e => .error e
      | .ok l => (parse_dates ys).map (l ++ ·) := by
  induction xs with
  | nil =>
    show parse_dates ys = _
    rw [show parse_dates ([] : List Str) = .ok [] from rfl]
    cases hys : parse_dates ys <;> simp [Except.map]
  | cons s xs ih =>
    have hcons : parse_dates (s :: (xs ++ ys)) =
        match parse_date s with
        | none => .error (.invalidDate s)
        | some dt => (parse_dates (xs ++ ys)).map (dt :: ·) := rfl
    have hcons2 : parse_dates (s :: xs) =
        match parse_date s with
        | none => .error (.invalidDate s)
        | some dt => (parse_dates xs).map (dt :: ·) := rfl
    show parse_dates (s :: (xs ++ ys)) = _
    rw [hcons, hcons2]
    cases hps : parse_date s with
    | none => rfl
    | some dt =>
      rw [ih]
      cases hxs : parse_dates xs with
      | error e => rfl
      | ok l =>
        cases hys : parse_dates ys <;> simp [Except.map]

theorem parse_dates_ok_iff {dates : List Str} {dts : List PyDate} :
    parse_dates dates = .ok dts ↔
      (dates.length = dts.length ∧
       ∀ (i : Nat) (hi : i < dates.length) (hi2 : i < dts.length),
         parse_date (dates.get ⟨i, hi⟩) = some (dts.get ⟨i, hi2⟩)) := by
  induction dates generalizing dts with
  | nil =>
    constructor
    · intro h
      cases hd : dts with
      | nil => simp
      | cons a l =>
        rw [hd] at h
        simp [parse_dates] at h
    · intro ⟨hl, _⟩
      have : dts = [] := List.length_eq_zero.mp (by simpa using hl.symm)
      rw [this]
      rfl
  | cons s rest ih =>
    constructor
    · intro h
      rw [parse_dates] at h
      cases hps : parse_date s with
      | none => rw [hps] at h; exact absurd h (by simp)
      | some dt =>
        rw [hps] at h
        cases hrest : parse_dates rest with
        | error e => rw [hrest] at h; exact absurd h (by simp [Except.map])
        | ok l =>
          rw [hrest] at h
          simp only [Except.map, Except.ok.injEq] at h
          subst h
          obtain ⟨hl, hall⟩ := ih.mp hrest
          refine ⟨by simp [hl], ?_⟩
          intro i hi hi2
          cases i with
          | zero => simpa using hps
          | succ j =>
            have hj : j < rest.length := by simpa using hi
            have hj2 : j < l.length := by simpa using hi2
            simpa using hall j hj hj2
    · intro ⟨hl, hall⟩
      cases hd : dts with
      | nil => simp [hd] at hl
      | cons dt l =>
        subst hd
        have h0 : parse_date s = some dt := hall 0 (by simp) (by simp)
        rw [parse_dates, h0]
        have hrest : parse_dates rest = .ok l := by
          apply ih.mpr
          refine ⟨by simpa using hl, ?_⟩
          intro i hi hi2
          simpa using hall (i + 1) (by simpa using Nat.succ_lt_succ hi)
            (by simpa using Nat.succ_lt_succ hi2)
        rw [hrest]
        rfl

theorem parse_dates_error_head {pre : List Str} {s : Str} (post : List Str)
    (hpre : ∀ t ∈ pre, (parse_date t).isSome = true) (hs : parse_date s = none) :
    parse_dates (pre ++ s :: post) = .error (.invalidDate s) := by
  induction pre with
  | nil =>
    show parse_dates (s :: post) = _
    rw [parse_dates, hs]
  | cons t pre ih =>
    show parse_dates (t :: (pre ++ s :: post)) = _
    rw [parse_dates]
    cases hpt : parse_date t with
    | none =>
      have := hpre t (by simp)
      rw [hpt] at this
      simp at this
    | some dt =>
      rw [ih (fun u hu => hpre u (List.mem_cons_of_mem _ hu))]
      rfl

theorem parse_dates_mem {dates : List Str} {dts : List PyDate}
    (h : parse_dates dates = .ok dts) :
    ∀ dt ∈ dts, ∃ s ∈ dates, parse_date s = some dt := by
  obtain ⟨hl, hall⟩ := parse_dates_ok_iff.mp h
  intro dt hdt
  obtain ⟨⟨i, hi⟩, hval⟩ := List.mem_iff_get.mp hdt
  have hi2 : i < dates.length := by omega
  refine ⟨dates.get ⟨i, hi2⟩, List.get_mem dates i hi2, ?_⟩
  rw [hall i hi2 hi, hval]

/-! ## Lemmas about `_group_by_month` -/

theorem lookup_insert_self (g : List ((Nat × Nat) × List Nat)) (k : Nat × Nat) (d : Nat) :
    ∃ ds, lookup_group (insert_day k d g) k = some ds ∧ d ∈ ds := by
  induction g with
  | nil => exact ⟨[d], by simp [insert_day, lookup_group], by simp⟩
  | cons e rest ih =>
    obtain ⟨k0, ds0⟩ := e
    by_cases hk : k0 = k
    · subst hk
      refine ⟨if d ∈ ds0 then ds0 else ds0 ++ [d], ?_, ?_⟩
      · simp [insert_day, lookup_group]
      · split <;> simp_all
    · obtain ⟨ds, h1, h2⟩ := ih
      exact ⟨ds, by simp [insert_day, hk, lookup_group, h1], h2⟩

theorem lookup_insert_preserve {g : List ((Nat × Nat) × List Nat)} {k : Nat × Nat} {d : Nat}
    (h : ∃ ds, lookup_group g k = some ds ∧ d ∈ ds) (k' : Nat × Nat) (d' : Nat) :
    ∃ ds, lookup_group (insert_day k' d' g) k = some ds ∧ d ∈ ds := by
  induction g with
  | nil => simp [lookup_group] at h
  | cons e rest ih =>
    obtain ⟨k0, ds0⟩ := e
    obtain ⟨ds, h1, h2⟩ := h
    by_cases hk' : k0 = k'
    · subst hk'
      by_cases hk : k0 = k
      · subst hk
        rw [lookup_group, if_pos rfl] at h1
        rw [Option.some.injEq] at h1
        subst h1
        refine ⟨if d' ∈ ds0 then ds0 else ds0 ++ [d'], ?_, ?_⟩
        · simp [insert_day, lookup_group]
        · split <;> simp [h2]
      · rw [lookup_group, if_neg hk] at h1
        exact ⟨ds, by simp [insert_day, lookup_group, hk, h1], h2⟩
    · by_cases hk : k0 = k
      · subst hk
        rw [lookup_group, if_pos rfl] at h1
        exact ⟨ds, by simp [insert_day, hk', lookup_group, h1], h2⟩
      · rw [lookup_group, if_neg hk] at h1
        obtain ⟨ds2, g1, g2⟩ := ih ⟨ds, h1, h2⟩
        exact ⟨ds2, by simp [insert_day, hk', lookup_group, hk, g1], g2⟩

theorem insert_day_noop {g : List ((Nat × Nat) × List Nat)} {k : Nat × Nat} {d : Nat}
    (h : ∃ ds, lookup_group g k = some ds ∧ d ∈ ds) :
    insert_day k d g = g := by
  induction g with
  | nil => simp [lookup_group] at h
  | cons e rest ih =>
    obtain ⟨k0, ds0⟩ := e
    obtain ⟨ds, h1, h2⟩ := h
    by_cases hk : k0 = k
    · subst hk
      rw [lookup_group, if_pos rfl] at h1
      rw [Option.some.injEq] at h1
      subst h1
      simp [insert_day, h2]
    · rw [lookup_group, if_neg hk] at h1
      simp [insert_day, hk, ih ⟨ds, h1, h2⟩]

theorem group_fold_preserve {k : Nat × Nat} {d : Nat} :
    ∀ (l : List PyDate) (acc : List ((Nat × Nat) × List Nat)),
    (∃ ds, lookup_group acc k = some ds ∧ d ∈ ds) →
    ∃ ds, lookup_group
      (l.foldl (fun acc dt => insert_day (dt.year, dt.month) dt.day acc) acc) k =
        some ds ∧ d ∈ ds := by
  intro l
  induction l with
  | nil => exact fun acc h => h
  | cons dt l ih =>
    intro acc h
    exact ih _ (lookup_insert_preserve h _ _)

theorem group_by_month_dup (l1 l2 l3 : List PyDate) (dt : PyDate) :
    group_by_month (l1 ++ dt :: l2 ++ dt :: l3) =
      group_by_month (l1 ++ dt :: l2 ++ l3) := by
  unfold group_by_month
  simp only [List.foldl_append, List.foldl_cons]
  congr 1
  exact insert_day_noop (group_fold_preserve l2 _ (lookup_insert_self
    (l1.foldl (fun acc dt => insert_day (dt.year, dt.month) dt.day acc) [])
    (dt.year, dt.month) dt.day))

theorem keys_insert_day (k : Nat × Nat) (d : Nat) (g : List ((Nat × Nat) × List Nat)) :
    (insert_day k d g).map Prod.fst =
      if k ∈ g.map Prod.fst then g.map Prod.fst else g.map Prod.fst ++ [k] := by
  induction g with
  | nil => simp [insert_day]
  | cons e rest ih =>
    obtain ⟨k0, ds0⟩ := e
    by_cases hk : k0 = k
    · subst hk
      simp [insert_day]
    · rw [insert_day, if_neg hk]
      simp only [List.map_cons, ih]
      by_cases hmem : k ∈ rest.map Prod.fst
      · rw [if_pos hmem, if_pos (by simp [hmem])]
      · have hnotin : k ∉ k0 :: rest.map Prod.fst := by
          simp only [List.mem_cons, not_or]
          exact ⟨fun hh => hk hh.symm, hmem⟩
        rw [if_neg hmem, if_neg hnotin, List.cons_append]

theorem keys_fold_first_occ :
    ∀ (l : List PyDate) (acc : List ((Nat × Nat) × List Nat)),
    (l.foldl (fun acc dt => insert_day (dt.year, dt.month) dt.day acc) acc).map Prod.fst =
      (l.map (fun dt => (dt.year, dt.month))).foldl
        (fun ks k => if k ∈ ks then ks else ks ++ [k]) (acc.map Prod.fst) := by
  intro l
  induction l with
  | nil => intro acc; rfl
  | cons dt l ih =>
    intro acc
    rw [List.foldl_cons, List.map_cons, List.foldl_cons, ih, keys_insert_day]

theorem group_keys_eq_first_occurrences (dts : List PyDate) :
    (group_by_month dts).map Prod.fst =
      first_occurrences (dts.map (fun dt => (dt.year, dt.month))) :=
  keys_fold_first_occ dts []

theorem keys_fold_mono {k : Nat × Nat} :
    ∀ (l : List PyDate) (acc : List ((Nat × Nat) × List Nat)),
    k ∈ acc.map Prod.fst →
    k ∈ (l.foldl (fun acc dt => insert_day (dt.year, dt.month) dt.day acc) acc).map Prod.fst := by
  intro l
  induction l with
  | nil => exact fun acc h => h
  | cons dt l ih =>
    intro acc h
    refine ih _ ?_
    rw [keys_insert_day]
    split
    · exact h
    · exact List.mem_append_left _ h

theorem group_keys_complete {dts : List PyDate} :
    ∀ dt ∈ dts, (dt.year, dt.month) ∈ (group_by_month dts).map Prod.fst := by
  intro dt hdt
  unfold group_by_month
  obtain ⟨l1, l2, hsplit⟩ := List.append_of_mem hdt
  subst hsplit
  rw [List.foldl_append, List.foldl_cons]
  refine keys_fold_mono l2 _ ?_
  rw [keys_insert_day]
  split
  · assumption
  · simp

theorem insert_day_days {k : Nat × Nat} {d : Nat} {g : List ((Nat × Nat) × List Nat)} :
    ∀ e ∈ insert_day k d g, ∀ x ∈ e.2,
      (e.1 = k ∧ x = d) ∨ ∃ e' ∈ g, e'.1 = e.1 ∧ x ∈ e'.2 := by
  induction g with
  | nil =>
    intro e he x hx
    simp only [insert_day, List.mem_singleton] at he
    subst he
    simp only [List.mem_singleton] at hx
    exact Or.inl ⟨rfl, hx⟩
  | cons e0 rest ih =>
    obtain ⟨k0, ds0⟩ := e0
    intro e he x hx
    by_cases hk : k0 = k
    · subst hk
      rw [insert_day, if_pos rfl] at he
      rcases List.mem_cons.mp he with h1 | h1
      · subst h1
        simp only at hx
        split at hx
        · exact Or.inr ⟨(k0, ds0), by simp, rfl, hx⟩
        · rcases List.mem_append.mp hx with h2 | h2
          · exact Or.inr ⟨(k0, ds0), by simp, rfl, h2⟩
          · rw [List.mem_singleton] at h2
            exact Or.inl ⟨rfl, h2⟩
      · exact Or.inr ⟨e, List.mem_cons_of_mem _ h1, rfl, hx⟩
    · rw [insert_day, if_neg hk] at he
      rcases List.mem_cons.mp he with h1 | h1
      · subst h1
        exact Or.inr ⟨(k0, ds0), by simp, rfl, hx⟩
      · rcases ih e h1 x hx with h2 | ⟨e', he', h3, h4⟩
        · exact Or.inl h2
        · exact Or.inr ⟨e', List.mem_cons_of_mem _ he', h3, h4⟩

theorem group_fold_days :
    ∀ (l : List PyDate) (acc : List ((Nat × Nat) × List Nat)),
    ∀ e ∈ l.foldl (fun acc dt => insert_day (dt.year, dt.month) dt.day acc) acc,
    ∀ x ∈ e.2,
      (∃ e' ∈ acc, e'.1 = e.1 ∧ x ∈ e'.2) ∨
        ∃ dt ∈ l, (dt.year, dt.month) = e.1 ∧ dt.day = x := by
  intro l
  induction l with
  | nil => exact fun acc e he x hx => Or.inl ⟨e, he, rfl, hx⟩
  | cons dt l ih =>
    intro acc e he x hx
    rcases ih _ e he x hx with ⟨e', he', h1, h2⟩ | ⟨dt', hdt', h1, h2⟩
    · rcases insert_day_days e' he' x h2 with ⟨hh1, hh2⟩ | ⟨e'', he'', hh1, hh2⟩
      · exact Or.inr ⟨dt, by simp, hh1.symm.trans h1, hh2.symm⟩
      · exact Or.inl ⟨e'', he'', hh1.trans h1, hh2⟩
    · exact Or.inr ⟨dt', List.mem_cons_of_mem _ hdt', h1, h2⟩

theorem group_by_month_days {dts : List PyDate} :
    ∀ e ∈ group_by_month dts, ∀ x ∈ e.2,
      ∃ dt ∈ dts, (dt.year, dt.month) = e.1 ∧ dt.day = x := by
  intro e he x hx
  rcases group_fold_days dts [] e he x hx with ⟨e', he', _, _⟩ | h
  · simp at he'
  · exact h

theorem insert_day_ne_nil {g : List ((Nat × Nat) × List Nat)}
    (h : ∀ e ∈ g, e.2 ≠ []) (k : Nat × Nat) (d : Nat) :
    ∀ e ∈ insert_day k d g, e.2 ≠ [] := by
  induction g with
  | nil =>
    intro e he
    simp only [insert_day, List.mem_singleton] at he
    subst he
    simp
  | cons e0 rest ih =>
    obtain ⟨k0, ds0⟩ := e0
    intro e he
    by_cases hk : k0 = k
    · subst hk
      rw [insert_day, if_pos rfl] at he
      rcases List.mem_cons.mp he with h1 | h1
      · subst h1
        have hne := h (k0, ds0) (by simp)
        simp only at hne ⊢
        split
        · exact hne
        · simp
      · exact h e (List.mem_cons_of_mem _ h1)
    · rw [insert_day, if_neg hk] at he
      rcases List.mem_cons.mp he with h1 | h1
      · subst h1
        exact h (k0, ds0) (by simp)
      · exact ih (fun e' he' => h e' (List.mem_cons_of_mem _ he')) e h1

theorem group_by_month_ne_nil {dts : List PyDate} :
    ∀ e ∈ group_by_month dts, e.2 ≠ [] := by
  suffices hgen : ∀ (l : List PyDate) (acc : List ((Nat × Nat) × List Nat)),
      (∀ e ∈ acc, e.2 ≠ []) →
      ∀ e ∈ l.foldl (fun acc dt => insert_day (dt.year, dt.month) dt.day acc) acc,
        e.2 ≠ [] by
    exact hgen dts [] (by simp)
  intro l
  induction l with
  | nil => exact fun acc h => h
  | cons dt l ih =>
    intro acc h
    exact ih _ (insert_day_ne_nil h _ _)

/-! ## Lemmas about substring occurrence and the assembled message -/

theorem starts_with_self_append : ∀ (p b : Str), starts_with p (p ++ b) = true
  | [], _ => rfl
  | a :: p, b => by
    rw [List.cons_append, starts_with]
    simp [starts_with_self_append p b]

theorem has_sub_nil_left : ∀ (s : Str), has_sub [] s = true
  | [] => rfl
  | _ :: s => by
    rw [has_sub]
    simp [starts_with]

theorem has_sub_append_left {p s : Str} (h : has_sub p s = true) :
    ∀ (a : Str), has_sub p (a ++ s) = true
  | [] => h
  | c :: a => by
    rw [List.cons_append, has_sub]
    simp [has_sub_append_left h a]

theorem has_sub_of_decomp (p a b : Str) : has_sub p (a ++ p ++ b) = true := by
  rw [List.append_assoc]
  apply has_sub_append_left
  cases p with
  | nil => exact has_sub_nil_left b
  | cons c p =>
    rw [List.cons_append, has_sub]
    have := starts_with_self_append (c :: p) b
    rw [List.cons_append] at this
    simp [this]

theorem py_strip_subset {s : Str} {x : Char} (hx : x ∈ py_strip s) : x ∈ s := by
  unfold py_strip List.rdropWhile at hx
  rw [List.mem_reverse] at hx
  have h1 : x ∈ (List.dropWhile is_space s).reverse :=
    (List.dropWhile_sublist _).subset hx
  rw [List.mem_reverse] at h1
  exact (List.dropWhile_sublist _).subset h1

theorem mem_build_row_chars {marked : List Nat} {emoji : Str} {w : List Nat} {x : Char}
    (hx : x ∈ build_row marked emoji w) :
    x = ' ' ∨ ∃ p ∈ w.map (cell marked emoji), x ∈ p := by
  unfold build_row at hx
  rcases mem_join_with hx with h | ⟨t, ht, hxt⟩
  · exact Or.inl (by simpa using h)
  · rw [List.mem_filter] at ht
    have h2 : x ∈ py_strip (join_sp (w.map (cell marked emoji))) :=
      split_char_subset ht.1 hxt
    have h3 := py_strip_subset h2
    rcases mem_join_with h3 with h | h
    · exact Or.inl (by simpa using h)
    · exact Or.inr h

theorem mem_cell {marked : List Nat} {emoji : Str} {d : Nat} {x : Char}
    (hx : x ∈ cell marked emoji d) : x ∈ emoji ∨ x.isDigit = true := by
  unfold cell at hx
  split at hx
  · simp at hx
  · split at hx
    · exact Or.inl hx
    · exact Or.inr (nat_chars_mem x hx)

theorem mem_month_key {y m : Nat} {x : Char} (hx : x ∈ month_key y m) :
    x.isDigit = true ∨ x = '-' := by
  unfold month_key fmt04 fmt02 zero_pad at hx
  simp only [List.append_assoc, List.mem_append, List.mem_cons, List.mem_replicate] at hx
  rcases hx with ⟨_, h⟩ | h | h | ⟨_, h⟩ | h
  · exact Or.inl (by rw [h]; decide)
  · exact Or.inl (nat_chars_mem x h)
  · exact Or.inr h
  · exact Or.inl (by rw [h]; decide)
  · exact Or.inl (nat_chars_mem x h)

theorem header_line_chars {y m : Nat} {x : Char} (hx : x ∈ header_line y m) :
    x ∈ str "Календарь активностей для " ∨ x.isDigit = true ∨ x = '-' ∨ x = ':' := by
  unfold header_line at hx
  simp only [List.append_assoc, List.mem_append, List.mem_singleton] at hx
  rcases hx with h | h | h
  · exact Or.inl h
  · rcases mem_month_key h with h1 | h1
    · exact Or.inr (Or.inl h1)
    · exact Or.inr (Or.inr (Or.inl h1))
  · exact Or.inr (Or.inr (Or.inr h))

theorem header_line_no_newline {y m : Nat} : '\n' ∉ header_line y m := by
  intro hx
  rcases header_line_chars hx with h | h | h | h
  · revert h
    decide
  · exact absurd h (by decide)
  · exact absurd h (by decide)
  · exact absurd h (by decide)

theorem join_with_cons (sep p : Str) {l : List Str} (h : l ≠ []) :
    join_with sep (p :: l) = p ++ sep ++ join_with sep l := by
  cases l with
  | nil => exact absurd rfl h
  | cons q l => rfl

/-- A whitespace-free marker of a marked in-month day occurs verbatim in
the rendered message. -/
theorem marker_in_message {y m d : Nat} {marked : List Nat} {emoji : Str}
    (hws : no_ws emoji = true) (hd1 : 1 ≤ d) (hd2 : d ≤ days_in_month y m)
    (hmem : d ∈ marked) :
    has_sub emoji (build_calendar_message y m marked emoji) = true := by
  by_cases hnil : emoji = []
  · subst hnil
    exact has_sub_nil_left _
  · have hcells : d ∈ (month_weeks y m).flatten := by
      rw [month_weeks_flatten]
      exact mem_month_cells hd1 hd2
    obtain ⟨w, hw, hdw⟩ := List.mem_flatten.mp hcells
    have hc : cell marked emoji d = emoji := by
      unfold cell
      rw [if_neg (by omega), if_pos hmem]
    have hmem2 : emoji ∈ (w.map (cell marked emoji)).filter (· ≠ []) := by
      rw [List.mem_filter]
      exact ⟨List.mem_map.mpr ⟨d, hdw, hc⟩, by simpa using hnil⟩
    obtain ⟨a1, b1, hrow⟩ := join_with_decomp [' '] hmem2
    have hrow_eq : build_row marked emoji w =
        join_sp ((w.map (cell marked emoji)).filter (· ≠ [])) := build_row_eq hws w
    rw [show join_with [' '] ((w.map (cell marked emoji)).filter (· ≠ [])) =
      join_sp ((w.map (cell marked emoji)).filter (· ≠ [])) from rfl] at hrow
    have hrow2 : build_row marked emoji w = a1 ++ emoji ++ b1 := by
      rw [hrow_eq, hrow]
    have hrow_ne : build_row marked emoji w ≠ [] := by
      rw [hrow2]
      simp [hnil]
    have hline : build_row marked emoji w ∈ build_calendar_lines y m marked emoji := by
      unfold build_calendar_lines
      refine List.mem_append_right _ ?_
      rw [List.mem_filter]
      exact ⟨List.mem_map.mpr ⟨w, hw, rfl⟩, by simpa using hrow_ne⟩
    obtain ⟨a2, b2, hmsg⟩ := join_with_decomp ['\n'] hline
    have hfull : build_calendar_message y m marked emoji =
        (str "```text\n" ++ a2 ++ a1) ++ emoji ++ (b1 ++ (b2 ++ str "\n```")) := by
      unfold build_calendar_message
      rw [show join_nl (build_calendar_lines y m marked emoji) =
        join_with ['\n'] (build_calendar_lines y m marked emoji) from rfl]
      rw [hmsg, hrow2]
      simp [List.append_assoc]
    rw [hfull]
    exact has_sub_of_decomp emoji _ _

/-- Under a whitespace-free marker the `lines` list of the message is the
header block followed by the collapsed, non-empty week rows. -/
theorem build_calendar_lines_eq {y m : Nat} {marked : List Nat} {emoji : Str}
    (hws : no_ws emoji = true) :
    build_calendar_lines y m marked emoji =
      [header_line y m, join_sp WEEKDAYS_RU, [], []] ++
        ((month_weeks y m).map
          (fun w => join_sp ((w.map (cell marked emoji)).filter (· ≠ [])))).filter
            (· ≠ []) := by
  unfold build_calendar_lines
  rw [List.map_congr_left (fun w _ => build_row_eq hws w)]

/-- With a non-empty whitespace-free marker no week row collapses. -/
theorem build_row_ne_nil {y m : Nat} {marked : List Nat} {emoji : Str}
    (hws : no_ws emoji = true) (hne : emoji ≠ []) {w : List Nat}
    (hw : w ∈ month_weeks y m) : build_row marked emoji w ≠ [] := by
  obtain ⟨d, hdw, hd0⟩ := week_has_day hw
  have hcne : cell marked emoji d ≠ [] := by
    unfold cell
    rw [if_neg hd0]
    split
    · exact hne
    · exact nat_chars_ne_nil d
  have hmem2 : cell marked emoji d ∈ (w.map (cell marked emoji)).filter (· ≠ []) := by
    rw [List.mem_filter]
    exact ⟨List.mem_map.mpr ⟨d, hdw, rfl⟩, by simpa using hcne⟩
  obtain ⟨a, b, hj⟩ := join_with_decomp [' '] hmem2
  rw [build_row_eq hws w]
  rw [show join_sp ((w.map (cell marked emoji)).filter (· ≠ [])) =
    join_with [' '] ((w.map (cell marked emoji)).filter (· ≠ [])) from rfl, hj]
  simp [hcne]

theorem build_calendar_lines_length {y m : Nat} {marked : List Nat} {emoji : Str}
    (hws : no_ws emoji = true) (hne : emoji ≠ []) :
    (build_calendar_lines y m marked emoji).length = 4 + (month_weeks y m).length := by
  unfold build_calendar_lines
  rw [List.filter_eq_self.mpr]
  · simp
    omega
  · intro row hrow
    obtain ⟨w, hw, hweq⟩ := List.mem_map.mp hrow
    subst hweq
    simpa using build_row_ne_nil hws hne hw

/-- The message is the newline-join of the fence-delimited line list. -/
theorem message_as_join (y m : Nat) (marked : List Nat) (emoji : Str) :
    build_calendar_message y m marked emoji =
      join_with ['\n'] (str "```text" ::
        (build_calendar_lines y m marked emoji ++ [str "```"])) := by
  unfold build_calendar_message
  rw [join_with_cons _ _ (by simp)]
  rw [join_with_snoc _ _ _ (by simp [build_calendar_lines])]
  rw [show str "```text\n" = str "```text" ++ ['\n'] from by decide]
  rw [show str "\n```" = ['\n'] ++ str "```" from by decide]
  rw [show join_nl (build_calendar_lines y m marked emoji) =
    join_with ['\n'] (build_calendar_lines y m marked emoji) from rfl]
  simp [List.append_assoc]

/-- No line of the message contains a newline, provided the marker does not. -/
theorem lines_no_newline {y m : Nat} {marked : List Nat} {emoji : Str}
    (hnl : '\n' ∉ emoji) :
    ∀ p ∈ str "```text" :: (build_calendar_lines y m marked emoji ++ [str "```"]),
      '\n' ∉ p := by
  intro p hp
  rcases List.mem_cons.mp hp with h | h
  · subst h
    decide
  · rcases List.mem_append.mp h with h | h
    · unfold build_calendar_lines at h
      rcases List.mem_append.mp h with h | h
      · intro hx
        simp only [List.mem_cons, List.not_mem_nil, or_false] at h
        rcases h with h1 | h1 | h1 | h1
        · subst h1
          exact header_line_no_newline hx
        · subst h1
          revert hx
          decide
        · subst h1
          simp at hx
        · subst h1
          simp at hx
      · rw [List.mem_filter] at h
        obtain ⟨w, hw, hweq⟩ := List.mem_map.mp h.1
        subst hweq
        intro hx
        rcases mem_build_row_chars hx with h1 | ⟨t, ht, hxt⟩
        · exact absurd h1 (by decide)
        · obtain ⟨d, _, hdeq⟩ := List.mem_map.mp ht
          subst hdeq
          rcases mem_cell hxt with h2 | h2
          · exact hnl h2
          · exact absurd h2 (by decide)
    · rw [List.mem_singleton] at h
      subst h
      decide

/-- Splitting the rendered message on newlines recovers exactly the fence
line, the calendar lines, and the closing fence. -/
theorem split_message {y m : Nat} {marked : List Nat} {emoji : Str}
    (hnl : '\n' ∉ emoji) :
    split_char '\n' (build_calendar_message y m marked emoji) =
      str "```text" :: (build_calendar_lines y m marked emoji ++ [str "```"]) := by
  rw [message_as_join]
  exact split_char_join_with (by simp) (lines_no_newline hnl)

/-! ## Case equations for `make_calendar` -/

theorem make_calendar_parse_error {dates : List Str} {emoji : Str} {e : ApiError}
    (h : parse_dates dates = .error e) : make_calendar dates emoji = .error e := by
  unfold make_calendar
  rw [h]

theorem make_calendar_grouped {dates : List Str} {emoji : Str} {dts : List PyDate}
    (h : parse_dates dates = .ok dts) :
    make_calendar dates emoji = (match group_by_month dts with
      | [] => .error .noDates
      | [((y, m), marked)] =>
        .ok ⟨month_key y m, build_calendar_message y m marked emoji⟩
      | grouped =>
        .error (.multiMonth (grouped.map (fun e => month_key e.1.1 e.1.2)))) := by
  unfold make_calendar
  rw [h]

theorem make_calendar_noDates {dates : List Str} {emoji : Str} {dts : List PyDate}
    (h : parse_dates dates = .ok dts) (hg : group_by_month dts = []) :
    make_calendar dates emoji = .error .noDates := by
  rw [make_calendar_grouped h, hg]

theorem make_calendar_single {dates : List Str} {emoji : Str} {dts : List PyDate}
    {y m : Nat} {marked : List Nat}
    (h : parse_dates dates = .ok dts) (hg : group_by_month dts = [((y, m), marked)]) :
    make_calendar dates emoji =
      .ok ⟨month_key y m, build_calendar_message y m marked emoji⟩ := by
  rw [make_calendar_grouped h, hg]

theorem make_calendar_multi {dates : List Str} {emoji : Str} {dts : List PyDate}
    (h : parse_dates dates = .ok dts) (hlen : 2 ≤ (group_by_month dts).length) :
    make_calendar dates emoji = .error (.multiMonth
      ((group_by_month dts).map (fun e => month_key e.1.1 e.1.2))) := by
  rw [make_calendar_grouped h]
  rcases hg : group_by_month dts with _ | ⟨e1, _ | ⟨e2, rest⟩⟩
  · rw [hg] at hlen
    simp at hlen
  · rw [hg] at hlen
    simp at hlen
  · obtain ⟨⟨y1, m1⟩, ds1⟩ := e1
    rfl

/-! ## Field bounds of a parsed date -/

theorem parse_date_fields {s : Str} {dt : PyDate} (h : parse_date s = some dt) :
    1 ≤ dt.day ∧ 1 ≤ dt.month ∧ dt.month ≤ 12 ∧ 1 ≤ dt.year ∧
      dt.day ≤ days_in_month dt.year dt.month := by
  obtain ⟨_, _, _, _, _, _, _, _, _, _, _, _, _, hv1, hv2, hv3, hv4, hv5⟩ :=
    parse_date_some_char h
  exact ⟨hv1, hv2, hv3, hv4, hv5⟩

/-! ## The claims -/

/-- C1 (counterexample): the string `"4-03-2025"` does not match the strict
`DD-MM-YYYY` pattern demanded by the claim (one-digit day), yet
`datetime.strptime` parses it successfully as 2025-03-04: parsing does not
succeed *only* on strict two-digit-day strings. -/
theorem c1_counterexample :
    strict_valid (str "4-03-2025") = false ∧
      parse_date (str "4-03-2025") = some ⟨2025, 3, 4⟩ := by
  decide

/-- C1 (amended): parsing succeeds exactly when the string consists of a
one- or two-digit day, a one- or two-digit month and a four-digit year
separated by dashes, denoting a real proleptic-Gregorian calendar date
(year at least 1); any other string fails, and the resulting invalid-date
error detail carries the offending literal and the expected format. -/
theorem c1_parse_format (s : Str) :
    (parse_date s).isSome = flex_valid s ∧
      has_sub s (invalid_detail s) = true ∧
      has_sub (str "DD-MM-YYYY") (invalid_detail s) = true := by
  refine ⟨parse_date_isSome_eq_flex s, ?_, ?_⟩
  · unfold invalid_detail
    exact has_sub_of_decomp s _ _
  · have hsplit : invalid_detail s =
        (str "Invalid date \"" ++ s ++ str "\". Expected format: ") ++
          str "DD-MM-YYYY" ++ str " (e.g. 14-03-2025)" := by
      unfold invalid_detail
      rw [show str "\". Expected format: DD-MM-YYYY (e.g. 14-03-2025)" =
        str "\". Expected format: " ++ str "DD-MM-YYYY" ++ str " (e.g. 14-03-2025)" from
          by decide]
      simp [List.append_assoc]
    rw [hsplit]
    exact has_sub_of_decomp _ _ _

/-- C2: on validly parsed dates the orchestration splits exactly on the
number of (year, month) groups: zero groups fail with the no-dates error,
more than one group fails with the multi-month error listing every distinct
formatted month key (never returning a rendered message), and exactly one
group renders that group and returns its `YYYY-MM` key with the message. -/
theorem c2_case_split (dates : List Str) (emoji : Str) (dts : List PyDate)
    (h : parse_dates dates = .ok dts) :
    (group_by_month dts = [] → make_calendar dates emoji = .error .noDates) ∧
    (∀ y m marked, group_by_month dts = [((y, m), marked)] →
      make_calendar dates emoji =
        .ok ⟨month_key y m, build_calendar_message y m marked emoji⟩) ∧
    (2 ≤ (group_by_month dts).length →
      make_calendar dates emoji = .error (.multiMonth
        ((group_by_month dts).map (fun e => month_key e.1.1 e.1.2))) ∧
      ∀ dt ∈ dts, month_key dt.year dt.month ∈
        (group_by_month dts).map (fun e => month_key e.1.1 e.1.2)) := by
  refine ⟨fun hg => make_calendar_noDates h hg,
    fun y m marked hg => make_calendar_single h hg,
    fun hlen => ⟨make_calendar_multi h hlen, ?_⟩⟩
  intro dt hdt
  obtain ⟨e, he, heq⟩ := List.mem_map.mp (group_keys_complete dt hdt)
  refine List.mem_map.mpr ⟨e, he, ?_⟩
  rw [heq]

/-- C2 (witness): a concrete single-month request exercising the theorem. -/
theorem c2_case_split_witness :
    (parse_dates [str "14-03-2025"] = .ok [⟨2025, 3, 14⟩]) ∧
      (group_by_month [(⟨2025, 3, 14⟩ : PyDate)] = [((2025, 3), [14])] →
        make_calendar [str "14-03-2025"] (str "✅") =
          .ok ⟨month_key 2025 3, build_calendar_message 2025 3 [14] (str "✅")⟩) :=
  ⟨by decide, fun hg =>
    (c2_case_split [str "14-03-2025"] (str "✅") [⟨2025, 3, 14⟩] (by decide)).2.1
      2025 3 [14] hg⟩

/-- C7: parsing fails fast: with every entry before `s` valid and `s`
invalid, the whole request fails with the invalid-date error for `s`,
regardless of anything after it. -/
theorem c7_fail_fast (pre post : List Str) (s emoji : Str)
    (hpre : ∀ t ∈ pre, (parse_date t).isSome = true) (hs : parse_date s = none) :
    make_calendar (pre ++ s :: post) emoji = .error (.invalidDate s) :=
  make_calendar_parse_error (parse_dates_error_head post hpre hs)

/-- C7 (witness): the malformed second entry aborts a concrete request;
the valid first entry and the following valid entry are irrelevant. -/
theorem c7_fail_fast_witness :
    (∀ t ∈ [str "14-03-2025"], (parse_date t).isSome = true) ∧
      parse_date (str "2025-03-14") = none ∧
      make_calendar ([str "14-03-2025"] ++ str "2025-03-14" :: [str "20-03-2025"])
        (str "✅") = .error (.invalidDate (str "2025-03-14")) :=
  ⟨by decide, by decide,
    c7_fail_fast [str "14-03-2025"] [str "20-03-2025"] (str "2025-03-14") (str "✅")
      (by decide) (by decide)⟩

/-- C8: the renderer is a pure function of (year, month, marked-day set,
marker): it depends on the marked days only through set membership, so two
calls agreeing on those inputs produce identical text. -/
theorem c8_renderer_pure (y m : Nat) (marked marked2 : List Nat) (emoji : Str)
    (h : ∀ d : Nat, d ∈ marked ↔ d ∈ marked2) :
    build_calendar_message y m marked emoji =
      build_calendar_message y m marked2 emoji := by
  have hcell : cell marked emoji = cell marked2 emoji := by
    funext d
    unfold cell
    by_cases hd : d = 0
    · simp [hd]
    · rw [if_neg hd, if_neg hd]
      by_cases hm : d ∈ marked
      · rw [if_pos hm, if_pos ((h d).mp hm)]
      · rw [if_neg hm, if_neg (fun hc => hm ((h d).mpr hc))]
  unfold build_calendar_message build_calendar_lines build_row
  rw [hcell]

/-- C8 (witness): two representations of the same marked-day set give the
same message. -/
theorem c8_renderer_pure_witness :
    (∀ d : Nat, d ∈ [14, 14, 20] ↔ d ∈ [20, 14]) ∧
      build_calendar_message 2025 3 [14, 14, 20] (str "✅") =
        build_calendar_message 2025 3 [20, 14] (str "✅") := by
  have hmem : ∀ d : Nat, d ∈ [14, 14, 20] ↔ d ∈ [20, 14] := by
    intro d
    simp only [List.mem_cons, List.not_mem_nil, or_false]
    tauto
  exact ⟨hmem, c8_renderer_pure 2025 3 [14, 14, 20] [20, 14] (str "✅") hmem⟩

/-- C3 (counterexample): the cell function emits the marker `"a  b"`
verbatim, but the row whitespace collapse rewrites its double space, so the
marker does not appear verbatim anywhere in the rendered message: the claim
fails for space-containing markers. -/
theorem c3_counterexample :
    cell [14] (str "a  b") 14 = str "a  b" ∧
      has_sub (str "a  b") (build_calendar_message 2025 3 [14] (str "a  b")) = false := by
  decide

/-- C3 (amended): the cell policy holds in order — empty slot renders as
the empty string, a marked day renders as the marker verbatim, any other
day renders as its decimal number with no leading zero — and the marker
appears verbatim in the rendered message for every marked in-month day
provided it contains no whitespace character (the row collapse normalizes
whitespace inside markers, as the counterexample shows). -/
theorem c3_cell_policy (marked : List Nat) (emoji : Str) (y m d : Nat)
    (hws : no_ws emoji = true) (hd1 : 1 ≤ d) (hd2 : d ≤ days_in_month y m)
    (hmem : d ∈ marked) :
    (∀ mk : List Nat, ∀ e : Str, cell mk e 0 = []) ∧
    (∀ k : Nat, k ≠ 0 → k ∈ marked → cell marked emoji k = emoji) ∧
    (∀ k : Nat, k ≠ 0 → k ∉ marked → cell marked emoji k = nat_chars k ∧
      nat_of_digits (nat_chars k) = k ∧
      ∀ c rest, nat_chars k = c :: rest → c ≠ '0') ∧
    has_sub emoji (build_calendar_message y m marked emoji) = true := by
  refine ⟨?_, ?_, ?_, marker_in_message hws hd1 hd2 hmem⟩
  · intro mk e
    unfold cell
    rw [if_pos rfl]
  · intro k hk hkm
    unfold cell
    rw [if_neg hk, if_pos hkm]
  · intro k hk hkm
    refine ⟨?_, nat_of_digits_nat_chars k, ?_⟩
    · unfold cell
      rw [if_neg hk, if_neg hkm]
    · intro c rest heq
      exact nat_chars_head_ne_zero (Nat.pos_of_ne_zero hk) heq

/-- C3 (witness): the policy instantiated at March 2025 with day 14 marked
by a checkmark. -/
theorem c3_cell_policy_witness :
    (no_ws (str "✅") = true ∧ 1 ≤ 14 ∧ 14 ≤ days_in_month 2025 3 ∧ 14 ∈ [14]) ∧
      has_sub (str "✅") (build_calendar_message 2025 3 [14] (str "✅")) = true :=
  ⟨by decide, (c3_cell_policy [14] (str "✅") 2025 3 14 (by decide) (by decide)
    (by decide) (by decide)).2.2.2⟩

/-- C4: for a real month the grid has one Monday-first week per row (4, 5
or 6 weeks); under a whitespace-free marker every rendered week row is
exactly that week's non-empty cell renderings joined by single spaces with
empty slots contributing nothing, a row collapsing to the empty string is
omitted, and with a non-empty marker no row collapses, so the number of
rendered rows equals the number of weeks. -/
theorem c4_grid_shape (y m : Nat) (marked : List Nat) (emoji : Str)
    (h1 : 1 ≤ m) (h2 : m ≤ 12) (hws : no_ws emoji = true) :
    ((month_weeks y m).length = 4 ∨ (month_weeks y m).length = 5 ∨
      (month_weeks y m).length = 6) ∧
    build_calendar_lines y m marked emoji =
      [header_line y m, join_sp WEEKDAYS_RU, [], []] ++
        ((month_weeks y m).map
          (fun w => join_sp ((w.map (cell marked emoji)).filter (· ≠ [])))).filter
            (· ≠ []) ∧
    (emoji ≠ [] →
      (build_calendar_lines y m marked emoji).length = 4 + (month_weeks y m).length) :=
  ⟨month_weeks_count y m, build_calendar_lines_eq hws,
    fun hne => build_calendar_lines_length hws hne⟩

/-- C4 (witness): March 2025 spans six Monday-first weeks and renders six
rows. -/
theorem c4_grid_shape_witness :
    (1 ≤ 3 ∧ 3 ≤ 12 ∧ no_ws (str "✅") = true) ∧
      (month_weeks 2025 3).length = 6 ∧
      (build_calendar_lines 2025 3 [14] (str "✅")).length = 4 + (month_weeks 2025 3).length :=
  ⟨by decide, by decide,
    (c4_grid_shape 2025 3 [14] (str "✅") (by decide) (by decide) (by decide)).2.2
      (by decide)⟩

/-- C5: splitting the rendered message on newlines yields exactly the
opening fence with language hint, the header line naming the month in
`YYYY-MM` form, the fixed Monday-first weekday labels, exactly two empty
lines, the non-empty week rows, and the closing fence — provided the
marker contains no newline (which would break the line structure). -/
theorem c5_message_structure (y m : Nat) (marked : List Nat) (emoji : Str)
    (hnl : '\n' ∉ emoji) :
    split_char '\n' (build_calendar_message y m marked emoji) =
      str "```text" :: header_line y m :: join_sp WEEKDAYS_RU :: [] :: [] ::
        (((month_weeks y m).map (build_row marked emoji)).filter (· ≠ []) ++
          [str "```"]) ∧
    header_line y m = str "Календарь активностей для " ++ month_key y m ++ [':'] := by
  constructor
  · rw [split_message hnl]
    simp [build_calendar_lines]
  · rfl

/-- C5 (witness): the concrete line structure of the March 2025 message. -/
theorem c5_message_structure_witness :
    ('\n' ∉ str "✅") ∧
      split_char '\n' (build_calendar_message 2025 3 [14] (str "✅")) =
        str "```text" :: header_line 2025 3 :: join_sp WEEKDAYS_RU :: [] :: [] ::
          (((month_weeks 2025 3).map (build_row [14] (str "✅"))).filter (· ≠ []) ++
            [str "```"]) :=
  ⟨by decide, (c5_message_structure 2025 3 [14] (str "✅") (by decide)).1⟩

/-- C6: marking the same valid date twice is idempotent: a request
containing a valid date string twice yields exactly the result of the
request with the duplicate removed. -/
theorem c6_duplicate_idempotent (pre mid post : List Str) (s emoji : Str)
    (hvalid : (parse_date s).isSome = true) :
    make_calendar (pre ++ s :: mid ++ s :: post) emoji =
      make_calendar (pre ++ s :: mid ++ post) emoji := by
  obtain ⟨dt, hdt⟩ := Option.isSome_iff_exists.mp hvalid
  have hsp : parse_dates (s :: post) = (parse_dates post).map (dt :: ·) := by
    rw [parse_dates, hdt]
  cases hA : parse_dates (pre ++ s :: mid) with
  | error e =>
    have hone : parse_dates ((pre ++ s :: mid) ++ s :: post) = .error e := by
      rw [parse_dates_append, hA]
    have htwo : parse_dates ((pre ++ s :: mid) ++ post) = .error e := by
      rw [parse_dates_append, hA]
    rw [make_calendar_parse_error hone, make_calendar_parse_error htwo]
  | ok l =>
    cases hpre : parse_dates pre with
    | error e =>
      rw [parse_dates_append, hpre] at hA
      exact absurd hA (by simp)
    | ok lp =>
      cases hmid : parse_dates mid with
      | error e =>
        rw [parse_dates_append, hpre, parse_dates, hdt, hmid] at hA
        simp [Except.map] at hA
      | ok lm =>
        have hl : l = lp ++ dt :: lm := by
          rw [parse_dates_append, hpre, parse_dates, hdt, hmid] at hA
          simp only [Except.map, Except.ok.injEq] at hA
          exact hA.symm
        cases hpost : parse_dates post with
        | error e =>
          have hone : parse_dates ((pre ++ s :: mid) ++ s :: post) = .error e := by
            rw [parse_dates_append, hA, hsp, hpost]
            rfl
          have htwo : parse_dates ((pre ++ s :: mid) ++ post) = .error e := by
            rw [parse_dates_append, hA, hpost]
            rfl
          rw [make_calendar_parse_error hone, make_calendar_parse_error htwo]
        | ok P =>
          have hone : parse_dates ((pre ++ s :: mid) ++ s :: post) =
              .ok (l ++ dt :: P) := by
            rw [parse_dates_append, hA, hsp, hpost]
            rfl
          have htwo : parse_dates ((pre ++ s :: mid) ++ post) = .ok (l ++ P) := by
            rw [parse_dates_append, hA, hpost]
            rfl
          rw [make_calendar_grouped hone, make_calendar_grouped htwo, hl]
          rw [group_by_month_dup]

/-- C6 (witness): a duplicated concrete date gives the same result as the
single occurrence. -/
theorem c6_duplicate_idempotent_witness :
    (parse_date (str "14-03-2025")).isSome = true ∧
      make_calendar [str "14-03-2025", str "14-03-2025"] (str "✅") =
        make_calendar [str "14-03-2025"] (str "✅") :=
  ⟨by decide, c6_duplicate_idempotent [] [] [] (str "14-03-2025") (str "✅")
    (by decide)⟩

/-- C9 (counterexample): with the all-whitespace marker `"  "` the request
succeeds and every hypothesis of the claim's success path holds, yet the
marker is not rendered anywhere in the message — the whitespace collapse
removes it — so "the marker is rendered at least once" fails. -/
theorem c9_counterexample :
    make_calendar [str "14-03-2025"] (str "  ") =
      .ok ⟨month_key 2025 3, build_calendar_message 2025 3 [14] (str "  ")⟩ ∧
      has_sub (str "  ") (build_calendar_message 2025 3 [14] (str "  ")) = false := by
  decide

/-- C9 (amended): on the success path there is exactly one month group
whose marked-day set is non-empty, every marked day lies between 1 and the
month length and occupies exactly one grid cell, and — for a
whitespace-free marker — the marker is rendered at least once in the
message. -/
theorem c9_success_invariant (dates : List Str) (emoji : Str) (resp : CalendarResponse)
    (h : make_calendar dates emoji = .ok resp) :
    ∃ dts y m marked, parse_dates dates = .ok dts ∧
      group_by_month dts = [((y, m), marked)] ∧
      marked ≠ [] ∧
      (∀ d ∈ marked, 1 ≤ d ∧ d ≤ days_in_month y m ∧ (month_cells y m).count d = 1) ∧
      resp = ⟨month_key y m, build_calendar_message y m marked emoji⟩ ∧
      (no_ws emoji = true →
        has_sub emoji (build_calendar_message y m marked emoji) = true) := by
  unfold make_calendar at h
  split at h
  case _ => exact absurd h (by simp)
  case _ dts heq =>
    split at h
    case _ => exact absurd h (by simp)
    case _ y m marked hg =>
      rw [Except.ok.injEq] at h
      have hdays : ∀ d ∈ marked, 1 ≤ d ∧ d ≤ days_in_month y m := by
        intro d hd
        obtain ⟨dt, hdt, hkey, hday⟩ :=
          group_by_month_days ((y, m), marked) (by rw [hg]; simp) d hd
        obtain ⟨s, _, hps⟩ := parse_dates_mem heq dt hdt
        have hf := parse_date_fields hps
        have hy : dt.year = y := by
          have := congrArg Prod.fst hkey
          simpa using this
        have hm : dt.month = m := by
          have := congrArg Prod.snd hkey
          simpa using this
        rw [← hday, ← hy, ← hm]
        exact ⟨hf.1, hf.2.2.2.2⟩
      refine ⟨dts, y, m, marked, heq, hg,
        group_by_month_ne_nil ((y, m), marked) (by rw [hg]; simp), ?_, h.symm, ?_⟩
      · intro d hd
        obtain ⟨hb1, hb2⟩ := hdays d hd
        exact ⟨hb1, hb2, count_month_cells hb1 hb2⟩
      · intro hws
        cases marked with
        | nil =>
          exact absurd rfl (group_by_month_ne_nil ((y, m), ([] : List Nat))
            (by rw [hg]; simp))
        | cons d0 rest =>
          obtain ⟨hb1, hb2⟩ := hdays d0 (by simp)
          exact marker_in_message hws hb1 hb2 (by simp)
    case _ => exact absurd h (by simp)

/-- C9 (witness): the invariant instantiated on a concrete successful
request. -/
theorem c9_success_invariant_witness :
    make_calendar [str "14-03-2025"] (str "✅") =
      .ok ⟨month_key 2025 3, build_calendar_message 2025 3 [14] (str "✅")⟩ ∧
    ∃ dts y m marked, parse_dates [str "14-03-2025"] = .ok dts ∧
      group_by_month dts = [((y, m), marked)] ∧
      marked ≠ [] ∧
      (∀ d ∈ marked, 1 ≤ d ∧ d ≤ days_in_month y m ∧ (month_cells y m).count d = 1) ∧
      (⟨month_key 2025 3, build_calendar_message 2025 3 [14] (str "✅")⟩ :
        CalendarResponse) = ⟨month_key y m, build_calendar_message y m marked (str "✅")⟩ ∧
      (no_ws (str "✅") = true →
        has_sub (str "✅") (build_calendar_message y m marked (str "✅")) = true) :=
  ⟨by decide, c9_success_invariant [str "14-03-2025"] (str "✅")
    ⟨month_key 2025 3, build_calendar_message 2025 3 [14] (str "✅")⟩ (by decide)⟩

/-- C10: when the parsed dates span at least two distinct months, the
multi-month error lists the formatted month keys in order of each month's
first occurrence in the input sequence — the insertion order of the
grouping dict. -/
theorem c10_multi_month_order (dates : List Str) (emoji : Str) (dts : List PyDate)
    (h : parse_dates dates = .ok dts) (hlen : 2 ≤ (group_by_month dts).length) :
    make_calendar dates emoji = .error (.multiMonth
      ((first_occurrences (dts.map (fun dt => (dt.year, dt.month)))).map
        (fun k => month_key k.1 k.2))) := by
  rw [make_calendar_multi h hlen]
  rw [show (group_by_month dts).map (fun e => month_key e.1.1 e.1.2) =
    ((group_by_month dts).map Prod.fst).map (fun k => month_key k.1 k.2) from by
      rw [List.map_map]; rfl]
  rw [group_keys_eq_first_occurrences]

/-- C10 (witness): with April appearing before an earlier-in-the-year
March date, the error lists 2025-04 first — input first-occurrence order,
not sorted order. -/
theorem c10_multi_month_order_witness :
    (parse_dates [str "01-04-2025", str "14-03-2025"] =
      .ok [⟨2025, 4, 1⟩, ⟨2025, 3, 14⟩]) ∧
    2 ≤ (group_by_month [(⟨2025, 4, 1⟩ : PyDate), ⟨2025, 3, 14⟩]).length ∧
    make_calendar [str "01-04-2025", str "14-03-2025"] (str "✅") =
      .error (.multiMonth
        ((first_occurrences ([(⟨2025, 4, 1⟩ : PyDate), ⟨2025, 3, 14⟩].map
          (fun dt => (dt.year, dt.month)))).map (fun k => month_key k.1 k.2))) :=
  ⟨by decide, by decide,
    c10_multi_month_order [str "01-04-2025", str "14-03-2025"] (str "✅")
      [⟨2025, 4, 1⟩, ⟨2025, 3, 14⟩] (by decide) (by decide)⟩
